import Mathlib

/-!
Shallow embedding of the toy multi-processor cooperative scheduler
(`src/main.rs`) and verification of its specified properties.

Modelling conventions:
* `Rc<RefCell<Task>>` sharing is replaced by value-passing.  In the source
  the only aliasing is between a CPU's `idle_task` field and its
  `running_task` field (they point to the same object whenever the idle
  task is the runner, and the idle task's id `0` is distinct from every
  user-task id `1000+`), so `next_task` re-synchronises the `idle_task`
  field whenever the task it just ran carries the idle id.
* `thread_rng` randomness is replaced by an explicit stream of draws
  (`Rng`), threaded through every `do_work` call; `gen_range(1..1000)`
  becomes `stream pos % 999 + 1`, an arbitrary value of the interval
  `[1, 999]` that the source draws from.
* Rust panics (`panic!` in `next_task`, division/remainder by zero and
  out-of-bounds indexing in `add_tasks`) are modelled as `Option.none`.
* `u64`/`usize` arithmetic never approaches overflow in any behaviour we
  reason about (clocks grow by at most 999 per step for at most 1000
  steps), so machine integers are modelled as `Nat`.
-/

namespace Sched

/-- Lifecycle states of a task, mirroring `enum TaskState`. -/
inductive TaskState where
  | RUNNABLE
  | RUNNING
  | WAIT
deriving DecidableEq, Repr

/-- The two workload variants of the source (`IdleTask`, `RandomUserTask`);
the trait object `Box<dyn TaskImpl>` becomes this closed sum because these
are the only implementors in the program. -/
inductive TaskImplKind where
  | idle
  | randomUser
deriving DecidableEq, Repr

/-- Explicit replacement for `thread_rng()`: a stream of pre-drawn numbers
and a position. -/
structure Rng where
  stream : Nat → Nat
  pos : Nat

/-- A fixed rng stream used to instantiate theorems on concrete runs. -/
def constRng : Rng := ⟨fun _ => 0, 0⟩

/-- `TaskImpl::do_work`: idle consumes exactly 1 tick; the random user
workload draws a value in `[1, 999]` (Rust `gen_range(1..1000)`) from the
stream and advances it. -/
def TaskImplKind.doWork : TaskImplKind → Rng → Nat × Rng
  | .idle, r => (1, r)
  | .randomUser, r => (r.stream r.pos % 999 + 1, { r with pos := r.pos + 1 })

/-- `struct TaskSliceOutput`. -/
structure TaskSliceOutput where
  next_state : TaskState
  clock_consumed : Nat
deriving DecidableEq, Repr

/-- `struct Task` (the `Box<dyn TaskImpl>` field becomes the closed sum
`TaskImplKind`). -/
structure Task where
  id : Nat
  state : TaskState
  total_runtime : Nat
  impl : TaskImplKind
deriving DecidableEq, Repr

/-- `Task::new`: starts `RUNNABLE` with zero accumulated runtime. -/
def Task.new (id : Nat) (impl : TaskImplKind) : Task :=
  { id := id, state := TaskState.RUNNABLE, total_runtime := 0, impl := impl }

/-- `Task::run`: performs `do_work`, accumulates the returned quantity into
`total_runtime`, and reports `RUNNABLE` as the next state together with the
clock time consumed.  (The `println!` diagnostic is dropped.) -/
def Task.run (t : Task) (r : Rng) : Task × TaskSliceOutput × Rng :=
  let wr := t.impl.doWork r
  ({ t with total_runtime := t.total_runtime + wr.1 },
   { next_state := TaskState.RUNNABLE, clock_consumed := wr.1 },
   wr.2)

/-- `struct Cpu`.  The run queue (`VecDeque`) is a list with `push_back`
as append and `pop_front` as head removal. -/
structure Cpu where
  id : Nat
  clock : Nat
  runq : List Task
  running_task : Task
  idle_task : Task
deriving DecidableEq, Repr

/-- `Cpu::new`: a fresh CPU owns a dedicated idle task with id `0`, starts
with clock `0`, an empty run queue, and the idle task as its runner. -/
def Cpu.new (id : Nat) : Cpu :=
  let idle_task := Task.new 0 TaskImplKind.idle
  { id := id, clock := 0, runq := [], running_task := idle_task,
    idle_task := idle_task }

/-- `Cpu::add_task`: append to the tail of the run queue. -/
def Cpu.add_task (c : Cpu) (t : Task) : Cpu :=
  { c with runq := c.runq ++ [t] }

/-- The tail of `Cpu::next_task` after the workload ran: add the consumed
time to the clock and apply the returned next state — except that a
returned `RUNNING` is a contract violation and aborts the process
(`none`).  `runq2` is the remaining queue and `ranTask` the task that just
ran.  Whenever the ran task carries the idle id the `idle_task` field is
the same object in the source, so it is re-synchronised here. -/
def Cpu.finishDispatch (c : Cpu) (runq2 : List Task) (ranTask : Task)
    (out : TaskSliceOutput) : Option Cpu :=
  match out.next_state with
  | TaskState.RUNNING => none
  | ns =>
    let finalTask := { ranTask with state := ns }
    some { c with
      clock := c.clock + out.clock_consumed,
      runq := runq2,
      running_task := finalTask,
      idle_task := if finalTask.id = c.idle_task.id then finalTask
                   else c.idle_task }

/-- `Cpu::next_task`, one dispatch step: requeue the previous runner unless
it is the idle task (compared, as in the source, by id), pop the head of
the queue falling back to the idle task, mark it `RUNNING`, run it, then
account the clock and apply the next state (`finishDispatch`).  Returns the
new CPU, the clock time consumed, and the advanced rng; `none` models the
abort. -/
def Cpu.next_task (c : Cpu) (r : Rng) : Option (Cpu × Nat × Rng) :=
  let old_task := c.running_task
  let runq1 := if old_task.id ≠ c.idle_task.id then c.runq ++ [old_task]
               else c.runq
  let sel : Task × List Task :=
    match runq1 with
    | [] => (c.idle_task, [])
    | t :: ts => (t, ts)
  let started := { sel.1 with state := TaskState.RUNNING }
  let res := started.run r
  (c.finishDispatch sel.2 res.1 res.2.1).map
    (fun c2 => (c2, res.2.1.clock_consumed, res.2.2))

/-- Iterated dispatch on one CPU, collecting the consumed clock quantities
of the `n` steps in order. -/
def Cpu.steps (c : Cpu) (r : Rng) : Nat → Option (Cpu × List Nat × Rng)
  | 0 => some (c, [], r)
  | n + 1 =>
    match c.next_task r with
    | none => none
    | some (c2, q, r2) =>
      match c2.steps r2 n with
      | none => none
      | some (c3, qs, r3) => some (c3, q :: qs, r3)

/-- `struct Scheduler`. -/
structure Scheduler where
  cpus : List Cpu
deriving DecidableEq, Repr

/-- `Scheduler::new`. -/
def Scheduler.new : Scheduler := ⟨[]⟩

/-- `Scheduler::add_cpus`: push CPUs with ids `0..n` onto the pool. -/
def Scheduler.add_cpus (s : Scheduler) (cpu_count : Nat) : Scheduler :=
  ⟨s.cpus ++ (List.range cpu_count).map Cpu.new⟩

/-- Replace the CPU at an index (the effect of `self.cpus[i].add_task`). -/
def updateCpu : List Cpu → Nat → (Cpu → Cpu) → List Cpu
  | [], _, _ => []
  | c :: cs, 0, f => f c :: cs
  | c :: cs, n + 1, f => c :: updateCpu cs n f

/-- Loop body of `Scheduler::add_tasks` over the remaining task ids.
`cpuCount` is `self.cpus.len()` captured before the loop.  A remainder by
zero, or an out-of-range index, is a Rust panic (`none`). -/
def addTasksGo (cpuCount : Nat) : List Cpu → List Nat → Option (List Cpu)
  | cpus, [] => some cpus
  | cpus, id :: rest =>
    if cpuCount = 0 then none
    else
      let cpu_id := id % cpuCount
      if cpu_id < cpus.length then
        addTasksGo cpuCount
          (updateCpu cpus cpu_id
            (fun c => c.add_task (Task.new id TaskImplKind.randomUser)))
          rest
      else none

/-- `Scheduler::add_tasks`: tasks get ids `1000, 1001, ...`, each a
`RandomUserTask`, appended to the run queue of CPU `id % cpu_count`. -/
def Scheduler.add_tasks (s : Scheduler) (task_count : Nat) : Option Scheduler :=
  (addTasksGo s.cpus.length s.cpus
      ((List.range task_count).map (fun k => 1000 + k))).map Scheduler.mk

/-- One inner pass of `run_forever`'s `for cpu in self.cpus.iter_mut()`:
step every CPU once, in order, threading the rng; also records the ids of
the CPUs stepped, in order (one entry per `next_task` call). -/
def stepCpus (r : Rng) : List Cpu → Option (List Cpu × Rng × List Nat)
  | [] => some ([], r, [])
  | c :: cs =>
    match c.next_task r with
    | none => none
    | some (c2, _, r2) =>
      match stepCpus r2 cs with
      | none => none
      | some (cs2, r3, tr) => some (c2 :: cs2, r3, c.id :: tr)

/-- `Scheduler::run_forever`, fuel-indexed.  `i` is the tick counter; the
source checks `i == 1000` only at the top of the outer `loop`, then runs a
full inner pass over all CPUs, incrementing `i` once per dispatch step.
Returns the final state, rng, counter, the trace of CPU ids stepped, and
whether the loop broke out (`true`) or the fuel ran out first (`false`). -/
def Scheduler.runLoop (s : Scheduler) (r : Rng) (i : Nat) :
    Nat → Option (Scheduler × Rng × Nat × List Nat × Bool)
  | 0 => some (s, r, i, [], false)
  | fuel + 1 =>
    if i = 1000 then some (s, r, i, [], true)
    else
      match stepCpus r s.cpus with
      | none => none
      | some (cs2, r2, tr) =>
        match Scheduler.runLoop ⟨cs2⟩ r2 (i + s.cpus.length) fuel with
        | none => none
        | some (s3, r3, i3, tr3, b) => some (s3, r3, i3, tr ++ tr3, b)

/-- The reference configuration built by `main`: 8 CPUs, 64 user tasks. -/
def refConfig : Scheduler :=
  ((Scheduler.new.add_cpus 8).add_tasks 64).getD Scheduler.new

/-- Stepping one chosen CPU of the scheduler (an out-of-range choice is a
no-op), used to express reachability by arbitrary `next_task` sequences. -/
def Scheduler.stepAt (s : Scheduler) (i : Nat) (r : Rng) :
    Option (Scheduler × Rng) :=
  match s.cpus[i]? with
  | none => some (s, r)
  | some c => (c.next_task r).map (fun x => (⟨s.cpus.set i x.1⟩, x.2.2))

/-- Stepping a sequence of chosen CPUs. -/
def Scheduler.stepsAt (s : Scheduler) (r : Rng) :
    List Nat → Option (Scheduler × Rng)
  | [] => some (s, r)
  | i :: rest =>
    match s.stepAt i r with
    | none => none
    | some x => x.1.stepsAt x.2 rest

/-! ### Derived characterisation of one dispatch step -/

/-- The queue `next_task` actually selects from: the run queue with the
previous runner re-appended, unless that runner carries the idle id. -/
def Cpu.effQueue (c : Cpu) : List Task :=
  if c.running_task.id ≠ c.idle_task.id then c.runq ++ [c.running_task]
  else c.runq

/-- The task one dispatch step selects to run. -/
def Cpu.selected (c : Cpu) : Task := c.effQueue.headD c.idle_task

/-- The run queue left after the selection. -/
def Cpu.restQueue (c : Cpu) : List Task := c.effQueue.tail

/-- Total description of one dispatch step: returns the new CPU state,
the consumed clock time, and the advanced rng. -/
def Cpu.afterStep (c : Cpu) (r : Rng) : Cpu × Nat × Rng :=
  let w := c.selected.impl.doWork r
  let ranTask : Task :=
    { c.selected with
      state := TaskState.RUNNABLE,
      total_runtime := c.selected.total_runtime + w.1 }
  ({ c with
     clock := c.clock + w.1,
     runq := c.restQueue,
     running_task := ranTask,
     idle_task := if ranTask.id = c.idle_task.id then ranTask
                  else c.idle_task },
   w.1, w.2)

theorem Cpu.next_task_eq (c : Cpu) (r : Rng) :
    c.next_task r = some (c.afterStep r) := by
  by_cases hid : c.running_task.id = c.idle_task.id <;>
    rcases hq : c.runq with _ | ⟨t, ts⟩ <;>
      simp [Cpu.next_task, Cpu.afterStep, Cpu.selected, Cpu.restQueue,
        Cpu.effQueue, Cpu.finishDispatch, Task.run, hid, hq]

theorem Cpu.clock_afterStep (c : Cpu) (r : Rng) :
    (c.afterStep r).1.clock = c.clock + (c.afterStep r).2.1 := rfl

theorem updateCpu_length (l : List Cpu) (n : Nat) (f : Cpu → Cpu) :
    (updateCpu l n f).length = l.length := by
  induction l generalizing n with
  | nil => rfl
  | cons c cs ih => cases n <;> simp [updateCpu, ih]

/-! ### Well-formedness invariant of a CPU

The reference configuration satisfies, and every dispatch step preserves:
the idle task has id 0 and the idle workload; every queued task is a user
task (id ≥ 1000); the runner is the idle task or a user task; the runner
and the queued tasks carry pairwise distinct ids; and a runner carrying the
idle id is the idle task itself (the `Rc` aliasing of the source). -/

def Cpu.WF (c : Cpu) : Prop :=
  c.idle_task.id = 0 ∧
  c.idle_task.impl = TaskImplKind.idle ∧
  (∀ t ∈ c.runq, 1000 ≤ t.id) ∧
  (c.running_task.id = 0 ∨ 1000 ≤ c.running_task.id) ∧
  ((c.running_task :: c.runq).map Task.id).Nodup ∧
  (c.running_task.id = 0 → c.running_task = c.idle_task)

instance (c : Cpu) : Decidable c.WF := by
  unfold Cpu.WF; infer_instance

theorem Cpu.WF_afterStep (c : Cpu) (r : Rng) (h : c.WF) :
    (c.afterStep r).1.WF := by
  obtain ⟨h1, h2, h3, h4, h5, h6⟩ := h
  by_cases hid : c.running_task.id = c.idle_task.id
  · have hrz : c.running_task.id = 0 := by omega
    have halias : c.running_task = c.idle_task := h6 hrz
    rcases hq : c.runq with _ | ⟨t, ts⟩
    · simp only [Cpu.WF, Cpu.afterStep, Cpu.selected, Cpu.restQueue,
        Cpu.effQueue, hid, hq, ne_eq, not_true_eq_false, if_false,
        ite_false, List.headD_nil, List.tail_nil]
      simp [h1, h2]
    · have ht : 1000 ≤ t.id := h3 t (by simp [hq])
      have hts : ∀ u ∈ ts, 1000 ≤ u.id := fun u hu => h3 u (by simp [hq, hu])
      have hnd : (t.id :: ts.map Task.id).Nodup := by
        rw [hq] at h5
        simpa using h5.of_cons
      simp only [Cpu.WF, Cpu.afterStep, Cpu.selected, Cpu.restQueue,
        Cpu.effQueue, hid, hq, ne_eq, not_true_eq_false, if_false,
        ite_false, List.headD_cons, List.tail_cons]
      have hcond : ¬ (t.id = c.idle_task.id) := by rw [h1]; omega
      simp only [if_neg hcond]
      refine ⟨h1, h2, hts, Or.inr ht, ?_, by intro hz; omega⟩
      simpa using hnd
  · have hrz : 1000 ≤ c.running_task.id := by
      rcases h4 with h4 | h4
      · exact absurd (by omega : c.running_task.id = c.idle_task.id) hid
      · exact h4
    rcases hq : c.runq with _ | ⟨t, ts⟩
    · simp only [Cpu.WF, Cpu.afterStep, Cpu.selected, Cpu.restQueue,
        Cpu.effQueue, hid, hq, ne_eq, ite_not, if_false,
        List.nil_append, List.headD_cons, List.tail_cons]
      refine ⟨h1, h2, by simp, h4, by simp, ?_⟩
      intro hz
      exact absurd (by omega : c.running_task.id = c.idle_task.id) hid
    · have ht : 1000 ≤ t.id := h3 t (by simp [hq])
      have hts : ∀ u ∈ ts, 1000 ≤ u.id := fun u hu => h3 u (by simp [hq, hu])
      have hnd : ((c.running_task :: t :: ts).map Task.id).Nodup := by
        rw [hq] at h5; exact h5
      simp only [Cpu.WF, Cpu.afterStep, Cpu.selected, Cpu.restQueue,
        Cpu.effQueue, hid, hq, ne_eq, ite_not, if_false,
        List.cons_append, List.headD_cons, List.tail_cons]
      have hcond : ¬ (t.id = c.idle_task.id) := by rw [h1]; omega
      simp only [if_neg hcond]
      refine ⟨h1, h2, ?_, Or.inr ht, ?_, by intro hz; omega⟩
      · intro u hu
        rcases List.mem_append.1 hu with hu | hu
        · exact hts u hu
        · simp at hu; subst hu; exact hrz
      · have hperm :
            ((c.running_task :: t :: ts).map Task.id).Perm
              (t.id :: (ts.map Task.id ++ [c.running_task.id])) := by
          simp only [List.map_cons]
          refine List.Perm.trans (List.Perm.swap _ _ _) ?_
          exact List.Perm.cons _ (List.perm_append_singleton _ _).symm
        have hnd2 := hperm.nodup hnd
        simpa using hnd2

/-- `next_task` preserves well-formedness. -/
theorem Cpu.WF_next_task (c : Cpu) (r : Rng) (h : c.WF)
    (x : Cpu × Nat × Rng) (hx : c.next_task r = some x) : x.1.WF := by
  rw [Cpu.next_task_eq] at hx
  cases hx
  exact Cpu.WF_afterStep c r h

/-- All CPUs of a scheduler are well-formed. -/
def SchedWF (s : Scheduler) : Prop := ∀ c ∈ s.cpus, c.WF

instance (s : Scheduler) : Decidable (SchedWF s) := by
  unfold SchedWF; infer_instance

theorem SchedWF_stepAt (s : Scheduler) (i : Nat) (r : Rng) (h : SchedWF s)
    (x : Scheduler × Rng) (hx : s.stepAt i r = some x) : SchedWF x.1 := by
  unfold Scheduler.stepAt at hx
  rcases hcpu : s.cpus[i]? with _ | c <;> rw [hcpu] at hx
  · have hx2 : some ((s, r) : Scheduler × Rng) = some x := hx
    cases hx2; exact h
  · have hx2 : Option.map
        (fun y : Cpu × Nat × Rng => (Scheduler.mk (s.cpus.set i y.1), y.2.2))
        (c.next_task r) = some x := hx
    rw [Cpu.next_task_eq, Option.map_some'] at hx2
    cases hx2
    intro c2 hc2
    rcases List.mem_or_eq_of_mem_set hc2 with hmem | rfl
    · exact h _ hmem
    · exact Cpu.WF_afterStep c r (h c (List.getElem?_mem hcpu))

theorem SchedWF_stepsAt (choices : List Nat) (s : Scheduler) (r : Rng)
    (h : SchedWF s) (x : Scheduler × Rng)
    (hx : s.stepsAt r choices = some x) : SchedWF x.1 := by
  induction choices generalizing s r with
  | nil =>
    simp only [Scheduler.stepsAt] at hx
    cases hx; exact h
  | cons i rest ih =>
    rw [Scheduler.stepsAt] at hx
    rcases h1 : s.stepAt i r with _ | y <;> rw [h1] at hx
    · cases hx
    · exact ih y.1 y.2 (SchedWF_stepAt s i r h y h1) hx

/-- The reference configuration is well-formed. -/
theorem schedWF_refConfig : SchedWF refConfig := by decide


/-! ### Per-task runtime accounting -/

/-- Every task instance a CPU holds: the runner, the idle task, and the
queued tasks (the runner and the idle task coincide when the CPU idles,
mirroring the shared `Rc` of the source). -/
def Cpu.allTasks (c : Cpu) : List Task :=
  c.running_task :: c.idle_task :: c.runq

def Cpu.runtimeOf (c : Cpu) (i : Nat) : Nat :=
  ((c.allTasks.find? (fun t => t.id == i)).map Task.total_runtime).getD 0

theorem Cpu.runtimeOf_afterStep (c : Cpu) (r : Rng) (h : c.WF) (i : Nat) :
    (c.afterStep r).1.runtimeOf i =
      if i = c.selected.id
      then c.runtimeOf i + (c.afterStep r).2.1
      else c.runtimeOf i := by
  obtain ⟨h1, h2, h3, h4, h5, h6⟩ := h
  by_cases hid : c.running_task.id = c.idle_task.id
  · have hrz : c.running_task.id = 0 := by omega
    have halias : c.running_task = c.idle_task := h6 hrz
    rcases hq : c.runq with _ | ⟨t, ts⟩
    · have hsel : c.selected = c.idle_task := by
        simp [Cpu.selected, Cpu.effQueue, hid, hq]
      simp only [Cpu.runtimeOf, Cpu.allTasks, Cpu.afterStep, Cpu.selected,
        Cpu.restQueue, Cpu.effQueue, hid, hq, ne_eq, not_true_eq_false,
        if_false, ite_false, List.headD_nil, List.tail_nil]
      rw [halias]
      by_cases hi : i = c.idle_task.id
      · simp [hi, List.find?_cons]
      · have hbeq : (c.idle_task.id == i) = false := by
          simp; omega
        simp [List.find?_cons, hbeq, hi]
    · have ht : 1000 ≤ t.id := h3 t (by simp [hq])
      have hts : ∀ u ∈ ts, 1000 ≤ u.id := fun u hu => h3 u (by simp [hq, hu])
      have hsel : c.selected = t := by
        simp [Cpu.selected, Cpu.effQueue, hid, hq]
      simp only [Cpu.runtimeOf, Cpu.allTasks, Cpu.afterStep, Cpu.selected,
        Cpu.restQueue, Cpu.effQueue, hid, hq, ne_eq, not_true_eq_false,
        if_false, ite_false, List.headD_cons, List.tail_cons]
      have hcond : ¬ (t.id = c.idle_task.id) := by omega
      simp only [if_neg hcond]
      by_cases hi : i = t.id
      · subst hi
        have hb1 : (c.running_task.id == t.id) = false := by simp; omega
        have hb2 : (c.idle_task.id == t.id) = false := by simp; omega
        simp [List.find?_cons, hb1, hb2]
      · by_cases hz : i = c.idle_task.id
        · have hb1 : (t.id == i) = false := by simp; omega
          have hb2 : (c.idle_task.id == i) = true := by simp [hz]
          have hb3 : (c.running_task.id == i) = true := by simp; omega
          simp [List.find?_cons, hb1, hb2, hb3, hi, halias]
        · have hb1 : (t.id == i) = false := by simp; omega
          have hb2 : (c.idle_task.id == i) = false := by simp; omega
          have hb3 : (c.running_task.id == i) = false := by simp; omega
          simp [List.find?_cons, hb1, hb2, hb3, hi]
  · have hrz : 1000 ≤ c.running_task.id := by
      rcases h4 with h4a | h4a
      · exact absurd (by omega : c.running_task.id = c.idle_task.id) hid
      · exact h4a
    rcases hq : c.runq with _ | ⟨t, ts⟩
    · have hsel : c.selected = c.running_task := by
        simp [Cpu.selected, Cpu.effQueue, hid, hq]
      simp only [Cpu.runtimeOf, Cpu.allTasks, Cpu.afterStep, Cpu.selected,
        Cpu.restQueue, Cpu.effQueue, hid, hq, ne_eq, ite_not, if_false,
        List.nil_append, List.headD_cons, List.tail_cons]
      by_cases hi : i = c.running_task.id
      · subst hi
        simp [List.find?_cons]
      · have hb1 : (c.running_task.id == i) = false := by simp; omega
        simp [List.find?_cons, hb1, hi]
    · have ht : 1000 ≤ t.id := h3 t (by simp [hq])
      have hts : ∀ u ∈ ts, 1000 ≤ u.id := fun u hu => h3 u (by simp [hq, hu])
      have hnd : (c.running_task.id :: t.id :: ts.map Task.id).Nodup := by
        rw [hq] at h5; simpa using h5
      have hnm : c.running_task.id ∉ t.id :: ts.map Task.id :=
        (List.nodup_cons.mp hnd).1
      have hrt : c.running_task.id ≠ t.id := by
        intro hh; exact hnm (by simp [hh])
      have hrts : ∀ u ∈ ts, u.id ≠ c.running_task.id := by
        intro u hu hh
        have hmem : u.id ∈ ts.map Task.id := List.mem_map_of_mem Task.id hu
        rw [hh] at hmem
        exact hnm (List.mem_cons_of_mem _ hmem)
      have hsel : c.selected = t := by
        simp [Cpu.selected, Cpu.effQueue, hid, hq]
      simp only [Cpu.runtimeOf, Cpu.allTasks, Cpu.afterStep, Cpu.selected,
        Cpu.restQueue, Cpu.effQueue, hid, hq, ne_eq, ite_not, if_false,
        List.cons_append, List.headD_cons, List.tail_cons]
      have hcond : ¬ (t.id = c.idle_task.id) := by omega
      simp only [if_neg hcond]
      by_cases hi : i = t.id
      · subst hi
        have hb1 : (c.running_task.id == t.id) = false := by simp; omega
        have hb2 : (c.idle_task.id == t.id) = false := by simp; omega
        simp [List.find?_cons, hb1, hb2]
      · by_cases hr2 : i = c.running_task.id
        · have hb1 : (t.id == i) = false := by simp; omega
          have hb2 : (c.idle_task.id == i) = false := by simp; omega
          have hb3 : (c.running_task.id == i) = true := by simp [hr2]
          have hnone : ts.find? (fun u => u.id == i) = none := by
            apply List.find?_eq_none.mpr
            intro u hu
            simp
            intro hh
            exact absurd (by omega : u.id = c.running_task.id) (hrts u hu)
          simp [List.find?_cons, List.find?_append, hb1, hb2, hb3, hi, hnone]
        · by_cases hz : i = c.idle_task.id
          · have hb1 : (t.id == i) = false := by simp; omega
            have hb2 : (c.idle_task.id == i) = true := by simp [hz]
            have hb3 : (c.running_task.id == i) = false := by simp; omega
            simp [List.find?_cons, hb1, hb2, hb3, hi]
          · have hb1 : (t.id == i) = false := by simp; omega
            have hb2 : (c.idle_task.id == i) = false := by simp; omega
            have hb3 : (c.running_task.id == i) = false := by simp; omega
            simp [List.find?_cons, List.find?_append, hb1, hb2, hb3, hi]

/-- One dispatch step never decreases any task's accumulated runtime. -/
theorem Cpu.runtimeOf_le_afterStep (c : Cpu) (r : Rng) (h : c.WF) (i : Nat) :
    c.runtimeOf i ≤ (c.afterStep r).1.runtimeOf i := by
  rw [Cpu.runtimeOf_afterStep c r h i]
  by_cases hi : i = c.selected.id
  · rw [if_pos hi]; exact Nat.le_add_right _ _
  · rw [if_neg hi]

/-- Dispatch steps preserve well-formedness along `Cpu.steps`. -/
theorem Cpu.WF_steps (n : Nat) : ∀ (c : Cpu) (r : Rng), c.WF →
    ∀ (y : Cpu × List Nat × Rng), c.steps r n = some y → y.1.WF := by
  induction n with
  | zero =>
    intro c r h y hy
    simp only [Cpu.steps] at hy
    cases hy; exact h
  | succ n ih =>
    intro c r h y hy
    rcases hstep : c.afterStep r with ⟨c1, q1, r1⟩
    have hwf1 : c1.WF := by
      have h1 := Cpu.WF_afterStep c r h
      rw [hstep] at h1; exact h1
    simp only [Cpu.steps, Cpu.next_task_eq, hstep] at hy
    rcases h2 : c1.steps r1 n with _ | y2 <;> rw [h2] at hy
    · cases hy
    · cases hy; exact ih c1 r1 hwf1 y2 h2

/-- Accumulated runtimes never decrease along iterated dispatch. -/
theorem Cpu.runtimeOf_le_steps (n : Nat) : ∀ (c : Cpu) (r : Rng), c.WF →
    ∀ (y : Cpu × List Nat × Rng), c.steps r n = some y →
    ∀ i, c.runtimeOf i ≤ y.1.runtimeOf i := by
  induction n with
  | zero =>
    intro c r h y hy i
    simp only [Cpu.steps] at hy
    cases hy; exact Nat.le_refl _
  | succ n ih =>
    intro c r h y hy i
    rcases hstep : c.afterStep r with ⟨c1, q1, r1⟩
    have hwf1 : c1.WF := by
      have h1 := Cpu.WF_afterStep c r h; rw [hstep] at h1; exact h1
    have hle1 : c.runtimeOf i ≤ c1.runtimeOf i := by
      have h1 := Cpu.runtimeOf_le_afterStep c r h i; rw [hstep] at h1
      exact h1
    simp only [Cpu.steps, Cpu.next_task_eq, hstep] at hy
    rcases h2 : c1.steps r1 n with _ | y2 <;> rw [h2] at hy
    · cases hy
    · cases hy; exact Nat.le_trans hle1 (ih c1 r1 hwf1 y2 h2 i)


/-! ### The global simulation loop -/

/-- A full inner pass never aborts: it steps every CPU once, records the
CPU ids in order, and preserves the id sequence. -/
theorem stepCpus_spec : ∀ (cs : List Cpu) (r : Rng), ∃ cs2 r2,
    stepCpus r cs = some (cs2, r2, cs.map Cpu.id)
    ∧ cs2.map Cpu.id = cs.map Cpu.id := by
  intro cs
  induction cs with
  | nil => intro r; exact ⟨[], r, rfl, rfl⟩
  | cons c cs ih =>
    intro r
    rcases hstep : c.afterStep r with ⟨c1, q1, r1⟩
    obtain ⟨cs2, r2, heq, hids⟩ := ih r1
    have hcid : c1.id = c.id := by
      have h : (c.afterStep r).1.id = c.id := rfl
      rw [hstep] at h; exact h
    refine ⟨c1 :: cs2, r2, ?_, ?_⟩
    · simp only [stepCpus, Cpu.next_task_eq, hstep, heq, List.map_cons]
    · simp [hcid, hids]

/-- If the CPU ids are exactly `0..n-1` and `1000 - i` is `n * j`, the
loop breaks after `j` more passes with the counter at exactly 1000, having
stepped the CPUs cyclically in id order. -/
theorem runLoop_breaks (n : Nat) (hn : 1 ≤ n) :
    ∀ (j : Nat) (s : Scheduler) (r : Rng) (i : Nat),
      s.cpus.map Cpu.id = List.range n →
      i + n * j = 1000 →
      ∃ s2 r2, s.runLoop r i (j + 1)
        = some (s2, r2, 1000, (List.replicate j (List.range n)).flatten,
            true) := by
  intro j
  induction j with
  | zero =>
    intro s r i hids hi
    have hi2 : i = 1000 := by omega
    subst hi2
    exact ⟨s, r, by simp [Scheduler.runLoop]⟩
  | succ j ih =>
    intro s r i hids hi
    have hK : 1 ≤ n * (j + 1) := by
      calc 1 ≤ n := hn
        _ = n * 1 := (Nat.mul_one n).symm
        _ ≤ n * (j + 1) := Nat.mul_le_mul_left n (by omega)
    have hne : ¬ i = 1000 := by omega
    have hlen : s.cpus.length = n := by
      have h := congrArg List.length hids
      simpa using h
    obtain ⟨cs2, r2, hstep, hids2⟩ := stepCpus_spec s.cpus r
    have harith : (i + n) + n * j = 1000 := by
      have hexp : n * (j + 1) = n * j + n := by ring
      omega
    obtain ⟨s2, r3, hrec⟩ :=
      ih (Scheduler.mk cs2) r2 (i + n) (hids2.trans hids) harith
    refine ⟨s2, r3, ?_⟩
    rw [Scheduler.runLoop, if_neg hne, hstep, hlen]
    dsimp only
    rw [hrec]
    dsimp only
    rw [hids, List.replicate_succ, List.flatten_cons]

/-! ### The reference configuration -/

/-! ### Claim theorems -/

/-- Concrete fixture: a CPU running user task 1001 with user task 1000
queued. -/
def cpuW1 : Cpu :=
  { id := 0, clock := 0,
    runq := [Task.new 1000 TaskImplKind.randomUser],
    running_task := Task.new 1001 TaskImplKind.randomUser,
    idle_task := Task.new 0 TaskImplKind.idle }

/-- Concrete fixture: the state of a fresh CPU after two idle steps. -/
def cpuW6 : Cpu :=
  { id := 0, clock := 2, runq := [],
    running_task := ⟨0, TaskState.RUNNABLE, 2, TaskImplKind.idle⟩,
    idle_task := ⟨0, TaskState.RUNNABLE, 2, TaskImplKind.idle⟩ }

/-- C1: FIFO round-robin dispatch — for a CPU whose run queue is
`t1 :: ts` and whose runner is not its idle task, one `next_task` call
makes `t1` the new runner and leaves the queue `ts ++ [old runner]`: the
previous runner is appended to the tail before the new head is popped. -/
theorem C1_fifo_round_robin (c : Cpu) (r : Rng) (t1 : Task) (ts : List Task)
    (hq : c.runq = t1 :: ts) (hr : c.running_task.id ≠ c.idle_task.id) :
    ∃ c2 q r2, c.next_task r = some (c2, q, r2) ∧
      c2.running_task.id = t1.id ∧ c2.running_task.impl = t1.impl ∧
      c2.runq = ts ++ [c.running_task] := by
  refine ⟨(c.afterStep r).1, (c.afterStep r).2.1, (c.afterStep r).2.2,
    ?_, ?_, ?_, ?_⟩ <;>
    simp [Cpu.next_task_eq, Cpu.afterStep, Cpu.selected, Cpu.restQueue,
      Cpu.effQueue, hq, hr]

/-- C1 witness: a CPU running task 1001 with task 1000 queued; after one
step, 1000 runs and 1001 sits at the tail of the queue. -/
theorem C1_fifo_round_robin_witness :
    (cpuW1.runq = [Task.new 1000 TaskImplKind.randomUser]
      ∧ cpuW1.running_task.id ≠ cpuW1.idle_task.id)
    ∧ ∃ c2 q r2, cpuW1.next_task constRng = some (c2, q, r2) ∧
        c2.running_task.id = (Task.new 1000 TaskImplKind.randomUser).id ∧
        c2.running_task.impl = (Task.new 1000 TaskImplKind.randomUser).impl ∧
        c2.runq = [] ++ [cpuW1.running_task] :=
  ⟨⟨rfl, by decide⟩,
   C1_fifo_round_robin cpuW1 constRng _ [] rfl (by decide)⟩

/-- C3 counterexample: in the reference configuration, CPU 0 and CPU 1
are distinct CPUs, each owning its own dedicated idle-task instance
(`Cpu::new` runs `Task::new(0, ...)` once per CPU), yet both idle tasks
carry the same numeric identifier 0 — so identifiers are not unique
across all task instances of the simulation. -/
theorem C3_unique_ids_counterexample :
    (refConfig.cpus.getD 0 (Cpu.new 0)).id
      ≠ (refConfig.cpus.getD 1 (Cpu.new 0)).id
    ∧ (refConfig.cpus.getD 0 (Cpu.new 0)).idle_task.id
      = (refConfig.cpus.getD 1 (Cpu.new 0)).idle_task.id := by decide

/-- C3 (amended): in the reference configuration the 64 user tasks carry
pairwise distinct ids (1000..1063), and within each single CPU all task
instances (its idle task plus its queued tasks) carry pairwise distinct
ids; but the eight idle tasks all carry id 0, one per CPU, so uniqueness
holds only per CPU and among user tasks, not across the whole
simulation. -/
theorem C3_unique_ids_amended :
    ((refConfig.cpus.map Cpu.runq).flatten.map Task.id).Nodup
    ∧ (refConfig.cpus.all
        (fun c => decide (((c.idle_task :: c.runq).map Task.id).Nodup))
        = true)
    ∧ (refConfig.cpus.all (fun c => c.idle_task.id == 0) = true) := by
  refine ⟨by decide, by decide, by decide⟩

set_option maxRecDepth 40000 in
/-- C2 counterexample: with 3 CPUs (3 does not divide 1000) the tick
counter takes values 0, 3, 6, ..., 999, 1002, ... and is only compared
with 1000 between full passes, so it skips 1000: after 334 passes the
loop has executed 1002 dispatch steps and has not terminated — the claim
"exactly 1000 steps, then termination, for every CPU count" fails. -/
theorem C2_run_forever_counterexample :
    ((Scheduler.new.add_cpus 3).runLoop constRng 0 334).map
      (fun x => (x.2.2.1, x.2.2.2.2)) = some (1002, false) := rfl

/-- C2 (amended): when the CPU count `n ≥ 1` divides 1000 — as in the
reference configuration's 8 CPUs — `run_forever` breaks out with the tick
counter at exactly 1000, having advanced exactly one CPU per tick in CPU
identifier order 0, 1, ..., n-1, 0, 1, ... (1000 steps in total). -/
theorem C2_run_forever_divides (n k : Nat) (r : Rng) (hn : 1 ≤ n)
    (hk : n * k = 1000) :
    ∃ s2 r2, (Scheduler.new.add_cpus n).runLoop r 0 (k + 1)
      = some (s2, r2, 1000,
          (List.replicate k (List.range n)).flatten, true)
    ∧ ((List.replicate k (List.range n)).flatten).length = 1000 := by
  have hids : (Scheduler.new.add_cpus n).cpus.map Cpu.id = List.range n := by
    simp [Scheduler.add_cpus, Scheduler.new, List.map_map]
    have : (Cpu.id ∘ Cpu.new) = id := by
      funext i; rfl
    simp [this]
  obtain ⟨s2, r2, h⟩ := runLoop_breaks n hn k (Scheduler.new.add_cpus n) r 0
    hids (by omega)
  refine ⟨s2, r2, h, ?_⟩
  rw [List.length_flatten]
  have hmap : (List.replicate k (List.range n)).map List.length
      = List.replicate k n := by
    simp
  rw [hmap]
  simp [List.sum_replicate]
  rw [Nat.mul_comm] at hk
  exact hk

/-- C2 witness: the reference CPU count 8 divides 1000 (125 passes). -/
theorem C2_run_forever_divides_witness :
    ((1 : Nat) ≤ 8 ∧ 8 * 125 = 1000)
    ∧ (∃ s2 r2, (Scheduler.new.add_cpus 8).runLoop constRng 0 126
        = some (s2, r2, 1000,
            (List.replicate 125 (List.range 8)).flatten, true)
      ∧ ((List.replicate 125 (List.range 8)).flatten).length = 1000) :=
  ⟨⟨by decide, by decide⟩,
   C2_run_forever_divides 8 125 constRng (by decide) (by decide)⟩

/-- C4: the dispatch tail (`finishDispatch`) aborts exactly when the
returned next state is `RUNNING`; any other returned next state
(`RUNNABLE` or `WAIT`) is stored verbatim as the running task's state in
the resulting CPU; and the supplied `Task::run` always returns
`RUNNABLE`, so `next_task` never aborts. -/
theorem C4_abort_iff_running :
    (∀ (c : Cpu) (runq2 : List Task) (t : Task) (out : TaskSliceOutput),
        c.finishDispatch runq2 t out = none ↔
          out.next_state = TaskState.RUNNING)
    ∧ (∀ (c : Cpu) (runq2 : List Task) (t : Task) (out : TaskSliceOutput),
        out.next_state ≠ TaskState.RUNNING →
          c.finishDispatch runq2 t out
            = some { c with
                clock := c.clock + out.clock_consumed,
                runq := runq2,
                running_task := { t with state := out.next_state },
                idle_task := if t.id = c.idle_task.id
                  then { t with state := out.next_state }
                  else c.idle_task })
    ∧ (∀ (t : Task) (r : Rng),
        ((t.run r).2.1).next_state = TaskState.RUNNABLE)
    ∧ (∀ (c : Cpu) (r : Rng), (c.next_task r).isSome = true) := by
  refine ⟨?_, ?_, fun t r => rfl, fun c r => by rw [Cpu.next_task_eq]; rfl⟩
  · intro c runq2 t out
    obtain ⟨ns, q⟩ := out
    cases ns <;> simp [Cpu.finishDispatch]
  · intro c runq2 t out h
    obtain ⟨ns, q⟩ := out
    cases ns
    · rfl
    · exact absurd rfl h
    · rfl

/-- C4 witness: a returned `WAIT` is stored verbatim on a concrete CPU
(the abort-iff and never-aborts conjuncts are instantiated concretely as
well). -/
theorem C4_abort_iff_running_witness :
    (cpuW1.finishDispatch [] (Task.new 1000 TaskImplKind.randomUser)
        ⟨TaskState.RUNNING, 5⟩ = none ↔
      (⟨TaskState.RUNNING, 5⟩ : TaskSliceOutput).next_state
        = TaskState.RUNNING)
    ∧ ((⟨TaskState.WAIT, 5⟩ : TaskSliceOutput).next_state
        ≠ TaskState.RUNNING
      ∧ cpuW1.finishDispatch [] (Task.new 1000 TaskImplKind.randomUser)
          ⟨TaskState.WAIT, 5⟩
        = some { cpuW1 with
            clock := cpuW1.clock + 5,
            runq := [],
            running_task := { Task.new 1000 TaskImplKind.randomUser with
              state := TaskState.WAIT },
            idle_task := if (Task.new 1000 TaskImplKind.randomUser).id
                = cpuW1.idle_task.id
              then { Task.new 1000 TaskImplKind.randomUser with
                state := TaskState.WAIT }
              else cpuW1.idle_task })
    ∧ (cpuW1.next_task constRng).isSome = true :=
  ⟨C4_abort_iff_running.1 cpuW1 [] (Task.new 1000 TaskImplKind.randomUser)
      ⟨TaskState.RUNNING, 5⟩,
   ⟨by decide,
    C4_abort_iff_running.2.1 cpuW1 []
      (Task.new 1000 TaskImplKind.randomUser) ⟨TaskState.WAIT, 5⟩
      (by decide)⟩,
   C4_abort_iff_running.2.2.2 cpuW1 constRng⟩

/-- C5: idle fallback — a CPU with an empty queue whose runner is its own
idle task keeps running the idle task, keeps the queue empty, and advances
its clock by exactly 1. -/
theorem C5_idle_fallback (c : Cpu) (r : Rng) (hq : c.runq = [])
    (hr : c.running_task = c.idle_task)
    (hi : c.idle_task.impl = TaskImplKind.idle) :
    ∃ c2 r2, c.next_task r = some (c2, 1, r2) ∧
      c2.running_task = c2.idle_task ∧
      c2.running_task.id = c.idle_task.id ∧ c2.runq = [] ∧
      c2.clock = c.clock + 1 := by
  refine ⟨(c.afterStep r).1, (c.afterStep r).2.2, ?_, ?_, ?_, ?_, ?_⟩ <;>
    simp [Cpu.next_task_eq, Cpu.afterStep, Cpu.selected, Cpu.restQueue,
      Cpu.effQueue, hq, hr, hi, TaskImplKind.doWork]

/-- C5 witness: a freshly constructed CPU is exactly in the idle-fallback
situation, and one step advances its clock from 0 to 1. -/
theorem C5_idle_fallback_witness :
    ((Cpu.new 3).runq = [] ∧ (Cpu.new 3).running_task = (Cpu.new 3).idle_task
      ∧ (Cpu.new 3).idle_task.impl = TaskImplKind.idle)
    ∧ ∃ c2 r2, (Cpu.new 3).next_task constRng = some (c2, 1, r2) ∧
        c2.running_task = c2.idle_task ∧
        c2.running_task.id = (Cpu.new 3).idle_task.id ∧ c2.runq = [] ∧
        c2.clock = (Cpu.new 3).clock + 1 :=
  ⟨⟨rfl, rfl, rfl⟩, C5_idle_fallback (Cpu.new 3) constRng rfl rfl rfl⟩

/-- C6: clock conservation — a freshly constructed CPU has clock 0, and
after any `n` dispatch steps the clock equals the starting clock plus the
sum of the `do_work` quantities consumed by those steps. -/
theorem C6_clock_conservation :
    (∀ i, (Cpu.new i).clock = 0)
    ∧ ∀ (c : Cpu) (r : Rng) (n : Nat) (x : Cpu × List Nat × Rng),
        c.steps r n = some x → x.1.clock = c.clock + x.2.1.sum := by
  refine ⟨fun i => rfl, ?_⟩
  intro c r n
  induction n generalizing c r with
  | zero =>
    intro x hx
    simp only [Cpu.steps] at hx
    cases hx
    simp
  | succ n ih =>
    intro x hx
    have hc := Cpu.clock_afterStep c r
    rcases hstep : c.afterStep r with ⟨c1, q1, r1⟩
    rw [hstep] at hc
    simp only [Cpu.steps, Cpu.next_task_eq, hstep] at hx
    rcases h2 : c1.steps r1 n with _ | ⟨c3, qs, r3⟩ <;> rw [h2] at hx
    · cases hx
    · cases hx
      have h3 := ih _ _ _ h2
      dsimp only at hc h3 ⊢
      simp only [List.sum_cons]
      rw [h3, hc]
      omega

/-- C6 witness: two idle steps from a fresh CPU consume `[1, 1]` and the
final clock is `0 + 2`. -/
theorem C6_clock_conservation_witness :
    (Cpu.new 0).clock = 0 ∧
    ((Cpu.new 0).steps constRng 2 = some (cpuW6, [1, 1], constRng)
      ∧ cpuW6.clock = (Cpu.new 0).clock + [1, 1].sum) :=
  ⟨C6_clock_conservation.1 0,
   rfl, C6_clock_conservation.2 (Cpu.new 0) constRng 2 _ rfl⟩

/-- C10: implicit precondition of `add_tasks` — with zero CPUs and at
least one task to place, the remainder `task_id % cpu_count` divides by
zero and the process panics (`none`); with at least one CPU the operation
always succeeds. -/
theorem C10_add_tasks_needs_cpu :
    (∀ count, 1 ≤ count → Scheduler.new.add_tasks count = none)
    ∧ (∀ (s : Scheduler) (count : Nat), 1 ≤ s.cpus.length →
        (s.add_tasks count).isSome = true) := by
  constructor
  · intro count hc
    match count, hc with
    | n + 1, _ =>
      simp [Scheduler.add_tasks, Scheduler.new, List.range_succ_eq_map,
        addTasksGo]
  · intro s count hs
    have key : ∀ (ids : List Nat) (cpus : List Cpu),
        cpus.length = s.cpus.length →
        (addTasksGo s.cpus.length cpus ids).isSome = true := by
      intro ids
      induction ids with
      | nil => intro cpus _; simp [addTasksGo]
      | cons id rest ih =>
        intro cpus hlen
        have hpos : 0 < s.cpus.length := hs
        have hlt : id % s.cpus.length < cpus.length := by
          rw [hlen]; exact Nat.mod_lt _ hpos
        rw [addTasksGo, if_neg (by omega), if_pos hlt]
        exact ih _ (by rw [updateCpu_length, hlen])
    simpa [Scheduler.add_tasks] using key _ s.cpus rfl

/-- C8: idle-task exclusion — in every state reachable from the reference
configuration by any sequence of `next_task` calls (on arbitrarily chosen
CPUs), no CPU's run queue contains a task carrying that CPU's idle-task
id. -/
theorem C8_idle_task_exclusion (choices : List Nat) (r : Rng)
    (x : Scheduler × Rng) (hx : refConfig.stepsAt r choices = some x) :
    ∀ c ∈ x.1.cpus, ∀ t ∈ c.runq, t.id ≠ c.idle_task.id := by
  intro c hc t ht
  have hwf := SchedWF_stepsAt choices refConfig r schedWF_refConfig x hx
  obtain ⟨h1, _, h3, _, _, _⟩ := hwf c hc
  have := h3 t ht
  intro he
  omega

/-- C8 witness: instantiated at the empty call sequence, for CPU 0 of the
reference configuration and the first task of its run queue. -/
theorem C8_idle_task_exclusion_witness :
    (refConfig.stepsAt constRng [] = some (refConfig, constRng))
    ∧ refConfig.cpus.getD 0 (Cpu.new 0) ∈ refConfig.cpus
    ∧ (refConfig.cpus.getD 0 (Cpu.new 0)).runq.getD 0
        (Task.new 5 TaskImplKind.idle) ∈
        (refConfig.cpus.getD 0 (Cpu.new 0)).runq
    ∧ ((refConfig.cpus.getD 0 (Cpu.new 0)).runq.getD 0
        (Task.new 5 TaskImplKind.idle)).id ≠
        (refConfig.cpus.getD 0 (Cpu.new 0)).idle_task.id :=
  ⟨rfl, by decide, by decide,
   C8_idle_task_exclusion [] constRng (refConfig, constRng) rfl
     _ (by decide) _ (by decide)⟩

/-- C9: monotonic runtime — a task is constructed with runtime 0; for a
well-formed CPU, one dispatch step adds exactly the `do_work` return value
to the selected runner's accumulated runtime, leaves every other task's
runtime unchanged, and runtimes never decrease across any number of
steps. -/
theorem C9_monotonic_runtime :
    (∀ (i : Nat) (k : TaskImplKind), (Task.new i k).total_runtime = 0)
    ∧ (∀ (c : Cpu) (r : Rng) (x : Cpu × Nat × Rng), c.WF →
        c.next_task r = some x →
          x.2.1 = (c.selected.impl.doWork r).1
          ∧ x.1.runtimeOf x.1.running_task.id
              = c.runtimeOf x.1.running_task.id + x.2.1
          ∧ (∀ i, i ≠ x.1.running_task.id →
              x.1.runtimeOf i = c.runtimeOf i)
          ∧ (∀ i, c.runtimeOf i ≤ x.1.runtimeOf i))
    ∧ (∀ (n : Nat) (c : Cpu) (r : Rng), c.WF →
        ∀ (y : Cpu × List Nat × Rng), c.steps r n = some y →
          ∀ i, c.runtimeOf i ≤ y.1.runtimeOf i) := by
  refine ⟨fun i k => rfl, ?_,
    fun n c r hwf y hy i => Cpu.runtimeOf_le_steps n c r hwf y hy i⟩
  intro c r x hwf hx
  rw [Cpu.next_task_eq] at hx
  cases hx
  have hrun : (c.afterStep r).1.running_task.id = c.selected.id := rfl
  refine ⟨rfl, ?_, ?_, fun i => Cpu.runtimeOf_le_afterStep c r hwf i⟩
  · rw [hrun, Cpu.runtimeOf_afterStep c r hwf c.selected.id, if_pos rfl]
  · intro i hi
    rw [hrun] at hi
    rw [Cpu.runtimeOf_afterStep c r hwf i, if_neg hi]

/-- C9 witness: instantiated on the fixture CPU running task 1001 with
task 1000 queued (one step), and on a fresh CPU (one iterated step). -/
theorem C9_monotonic_runtime_witness :
    (Task.new 7 TaskImplKind.idle).total_runtime = 0
    ∧ (cpuW1.WF
      ∧ cpuW1.next_task constRng = some (cpuW1.afterStep constRng)
      ∧ ((cpuW1.afterStep constRng).2.1
            = (cpuW1.selected.impl.doWork constRng).1
        ∧ (cpuW1.afterStep constRng).1.runtimeOf
              (cpuW1.afterStep constRng).1.running_task.id
            = cpuW1.runtimeOf (cpuW1.afterStep constRng).1.running_task.id
              + (cpuW1.afterStep constRng).2.1
        ∧ (∀ i, i ≠ (cpuW1.afterStep constRng).1.running_task.id →
            (cpuW1.afterStep constRng).1.runtimeOf i = cpuW1.runtimeOf i)
        ∧ (∀ i, cpuW1.runtimeOf i ≤
            (cpuW1.afterStep constRng).1.runtimeOf i)))
    ∧ ((Cpu.new 2).WF
      ∧ (Cpu.new 2).steps constRng 1
          = some (((Cpu.new 2).afterStep constRng).1,
              [((Cpu.new 2).afterStep constRng).2.1],
              ((Cpu.new 2).afterStep constRng).2.2)
      ∧ ∀ i, (Cpu.new 2).runtimeOf i ≤
          ((Cpu.new 2).afterStep constRng).1.runtimeOf i) :=
  ⟨rfl,
   ⟨by decide, Cpu.next_task_eq cpuW1 constRng,
    C9_monotonic_runtime.2.1 cpuW1 constRng (cpuW1.afterStep constRng)
      (by decide) (Cpu.next_task_eq cpuW1 constRng)⟩,
   ⟨by decide, rfl,
    C9_monotonic_runtime.2.2 1 (Cpu.new 2) constRng (by decide)
      (((Cpu.new 2).afterStep constRng).1,
        [((Cpu.new 2).afterStep constRng).2.1],
        ((Cpu.new 2).afterStep constRng).2.2) rfl⟩⟩

/-- C10 witness: `add_tasks 1` on a scheduler with no CPUs panics, while
on a scheduler with 2 CPUs `add_tasks 3` succeeds. -/
theorem C10_add_tasks_needs_cpu_witness :
    ((1 : Nat) ≤ 1 ∧ Scheduler.new.add_tasks 1 = none)
    ∧ (1 ≤ (Scheduler.new.add_cpus 2).cpus.length
      ∧ ((Scheduler.new.add_cpus 2).add_tasks 3).isSome = true) :=
  ⟨⟨Nat.le_refl 1, C10_add_tasks_needs_cpu.1 1 (Nat.le_refl 1)⟩,
   ⟨by decide, C10_add_tasks_needs_cpu.2 (Scheduler.new.add_cpus 2) 3
      (by decide)⟩⟩


/-! ### Static assignment machinery -/

/-- The ids of the user tasks a CPU currently holds (runner plus queue,
excluding the idle id), the notion of "which tasks live on this CPU". -/
def Cpu.userIds (c : Cpu) : List Nat :=
  ((c.running_task :: c.runq).map Task.id).filter
    (fun i => i != c.idle_task.id)

theorem Cpu.id_afterStep (c : Cpu) (r : Rng) :
    (c.afterStep r).1.id = c.id := rfl

theorem Cpu.idle_id_afterStep (c : Cpu) (r : Rng) :
    (c.afterStep r).1.idle_task.id = c.idle_task.id := by
  simp only [Cpu.afterStep]
  split
  · next h => exact h
  · rfl

theorem Cpu.userIds_afterStep (c : Cpu) (r : Rng) :
    ((c.afterStep r).1.userIds).Perm c.userIds := by
  have h3 := Cpu.idle_id_afterStep c r
  by_cases hid : c.running_task.id = c.idle_task.id
  · rcases hq : c.runq with _ | ⟨t, ts⟩
    · have h1 : (c.afterStep r).1.running_task.id = c.idle_task.id := by
        simp [Cpu.afterStep, Cpu.selected, Cpu.effQueue, hid, hq]
      have h2 : (c.afterStep r).1.runq = [] := by
        simp [Cpu.afterStep, Cpu.restQueue, Cpu.effQueue, hid, hq]
      simp only [Cpu.userIds, List.map_cons, h1, h2, h3, hid, hq]
      simp
    · have h1 : (c.afterStep r).1.running_task.id = t.id := by
        simp [Cpu.afterStep, Cpu.selected, Cpu.effQueue, hid, hq]
      have h2 : (c.afterStep r).1.runq = ts := by
        simp [Cpu.afterStep, Cpu.restQueue, Cpu.effQueue, hid, hq]
      simp only [Cpu.userIds, List.map_cons, h1, h2, h3, hid, hq]
      simp [List.filter_cons]
  · rcases hq : c.runq with _ | ⟨t, ts⟩
    · have h1 : (c.afterStep r).1.running_task.id = c.running_task.id := by
        simp [Cpu.afterStep, Cpu.selected, Cpu.effQueue, hid, hq]
      have h2 : (c.afterStep r).1.runq = [] := by
        simp [Cpu.afterStep, Cpu.restQueue, Cpu.effQueue, hid, hq]
      simp only [Cpu.userIds, List.map_cons, h1, h2, h3, hq]
      exact List.Perm.refl _
    · have h1 : (c.afterStep r).1.running_task.id = t.id := by
        simp [Cpu.afterStep, Cpu.selected, Cpu.effQueue, hid, hq]
      have h2 : (c.afterStep r).1.runq = ts ++ [c.running_task] := by
        simp [Cpu.afterStep, Cpu.restQueue, Cpu.effQueue, hid, hq]
      simp only [Cpu.userIds, List.map_cons, h1, h2, h3, hq, List.map_append]
      apply List.Perm.filter
      refine List.Perm.trans ?_ (List.Perm.swap _ _ _)
      exact List.Perm.cons _ (List.perm_append_singleton _ _)

/-- The run queue the spec assigns to CPU `i`: the user tasks whose id is
congruent to `i` mod the CPU count, in id order. -/
def specAssignedQueue (C count i : Nat) : List Task :=
  (((List.range count).map (fun k => 1000 + k)).filter
      (fun id => id % C == i)).map
    (fun id => Task.new id TaskImplKind.randomUser)

/-- CPU `i` as `add_tasks` leaves it in a fresh scheduler. -/
def specCpu (C count i : Nat) : Cpu :=
  { Cpu.new i with runq := specAssignedQueue C count i }

theorem updateCpu_eq (l : List Cpu) : ∀ (j : Nat) (g : Cpu → Cpu)
    (h : j < l.length),
    updateCpu l j g = l.set j (g (l.get ⟨j, h⟩)) := by
  induction l with
  | nil => intro j g h; simp at h
  | cons c cs ih =>
    intro j g h
    cases j with
    | zero => rfl
    | succ j =>
      simp only [updateCpu, List.set]
      rw [ih j g (by simpa using h)]
      rfl

theorem updateCpu_map_range (f : Nat → Cpu) (g : Cpu → Cpu) (C j : Nat)
    (h : j < C) :
    updateCpu ((List.range C).map f) j g
      = (List.range C).map (fun i => if i = j then g (f i) else f i) := by
  have hlen : j < ((List.range C).map f).length := by simpa using h
  rw [updateCpu_eq _ _ _ hlen]
  apply List.ext_getElem
  · simp
  · intro n h1 h2
    rw [List.getElem_set]
    simp only [List.get_eq_getElem, List.getElem_map, List.getElem_range]
    by_cases hn : j = n
    · subst hn; simp
    · rw [if_neg hn, if_neg (fun hh => hn hh.symm)]

theorem addTasksGo_spec (C : Nat) (hC : 1 ≤ C) : ∀ (ids : List Nat)
    (Q : Nat → List Task),
    addTasksGo C
        ((List.range C).map (fun i => { Cpu.new i with runq := Q i })) ids
      = some ((List.range C).map (fun i =>
          { Cpu.new i with
            runq := Q i ++ (ids.filter (fun id => id % C == i)).map
              (fun id => Task.new id TaskImplKind.randomUser) })) := by
  intro ids
  induction ids with
  | nil =>
    intro Q
    simp [addTasksGo]
  | cons id rest ih =>
    intro Q
    have hmod : id % C < C := Nat.mod_lt _ (by omega)
    rw [addTasksGo, if_neg (by omega),
      if_pos (by simpa using hmod)]
    rw [updateCpu_map_range _ _ C _ hmod]
    have hfun : (fun i => if i = id % C
          then Cpu.add_task { Cpu.new i with runq := Q i }
            (Task.new id TaskImplKind.randomUser)
          else { Cpu.new i with runq := Q i })
        = (fun i => { Cpu.new i with
            runq := (fun j => if j = id % C
              then Q j ++ [Task.new id TaskImplKind.randomUser]
              else Q j) i }) := by
      funext i
      by_cases hi : i = id % C <;> simp [hi, Cpu.add_task]
    rw [hfun, ih]
    congr 1
    apply List.map_congr_left
    intro i hi
    by_cases hcase : (id % C == i) = true
    · have hpos : i = id % C := by
        simp at hcase; omega
      rw [List.filter_cons, if_pos hcase, if_pos hpos]
      simp [List.append_assoc]
    · have hneg : ¬ i = id % C := fun hh => hcase (by simp [hh])
      rw [List.filter_cons, if_neg hcase, if_neg hneg]

theorem add_tasks_spec (C count : Nat) (hC : 1 ≤ C) :
    (Scheduler.new.add_cpus C).add_tasks count
      = some ⟨(List.range C).map (specCpu C count)⟩ := by
  have hcpus : (Scheduler.new.add_cpus C).cpus
      = (List.range C).map
          (fun i => { Cpu.new i with runq := ([] : List Task) }) := by
    simp only [Scheduler.add_cpus, Scheduler.new, List.nil_append]
    apply List.map_congr_left
    intro a _
    rfl
  rw [Scheduler.add_tasks, hcpus]
  rw [List.length_map, List.length_range]
  rw [addTasksGo_spec C hC _ (fun _ => [])]
  simp [specCpu, specAssignedQueue]

/-- C7: static assignment — `add_tasks` on a fresh scheduler with `C ≥ 1`
CPUs creates tasks `1000, 1001, ...`, each `RUNNABLE` with a `RandomUser`
workload, appending task `t` to the run queue of CPU `t % C`; and no
dispatch step ever moves a user task to a different CPU (each CPU's
multiset of user-task ids, and its CPU id, are preserved). -/
theorem C7_static_assignment (C count : Nat) (hC : 1 ≤ C) :
    ((Scheduler.new.add_cpus C).add_tasks count
        = some ⟨(List.range C).map (specCpu C count)⟩)
    ∧ (∀ (c : Cpu) (r : Rng) (x : Cpu × Nat × Rng),
        c.next_task r = some x →
          x.1.id = c.id ∧ (x.1.userIds).Perm c.userIds)
    ∧ (∀ (s : Scheduler) (i : Nat) (r : Rng) (y : Scheduler × Rng),
        s.stepAt i r = some y →
        ∀ (j : Nat) (c1 c2 : Cpu), s.cpus[j]? = some c1 →
          y.1.cpus[j]? = some c2 →
          c2.id = c1.id ∧ (c2.userIds).Perm c1.userIds) := by
  refine ⟨add_tasks_spec C count hC, ?_, ?_⟩
  · intro c r x hx
    rw [Cpu.next_task_eq] at hx
    cases hx
    exact ⟨Cpu.id_afterStep c r, Cpu.userIds_afterStep c r⟩
  · intro s i r y hy j c1 c2 h1 h2
    unfold Scheduler.stepAt at hy
    rcases hcpu : s.cpus[i]? with _ | c <;> rw [hcpu] at hy
    · have hy2 : some ((s, r) : Scheduler × Rng) = some y := hy
      cases hy2
      rw [h1] at h2
      cases h2
      exact ⟨rfl, List.Perm.refl _⟩
    · have hy2 : Option.map
          (fun z : Cpu × Nat × Rng =>
            (Scheduler.mk (s.cpus.set i z.1), z.2.2))
          (c.next_task r) = some y := hy
      rw [Cpu.next_task_eq, Option.map_some'] at hy2
      cases hy2
      by_cases hij : i = j
      · subst hij
        have hlt : i < s.cpus.length := by
          rcases List.getElem?_eq_some.mp hcpu with ⟨hl, _⟩
          exact hl
        rw [List.getElem?_set, if_pos rfl, if_pos hlt] at h2
        cases h2
        rw [hcpu] at h1
        cases h1
        exact ⟨Cpu.id_afterStep c1 r, Cpu.userIds_afterStep c1 r⟩
      · rw [List.getElem?_set_ne hij] at h2
        rw [h1] at h2
        cases h2
        exact ⟨rfl, List.Perm.refl _⟩

/-- C7 witness: instantiated at 2 CPUs and 2 tasks. -/
theorem C7_static_assignment_witness :
    (1 : Nat) ≤ 2
    ∧ (((Scheduler.new.add_cpus 2).add_tasks 2
          = some ⟨(List.range 2).map (specCpu 2 2)⟩)
      ∧ (∀ (c : Cpu) (r : Rng) (x : Cpu × Nat × Rng),
          c.next_task r = some x →
            x.1.id = c.id ∧ (x.1.userIds).Perm c.userIds)
      ∧ (∀ (s : Scheduler) (i : Nat) (r : Rng) (y : Scheduler × Rng),
          s.stepAt i r = some y →
          ∀ (j : Nat) (c1 c2 : Cpu), s.cpus[j]? = some c1 →
            y.1.cpus[j]? = some c2 →
            c2.id = c1.id ∧ (c2.userIds).Perm c1.userIds)) :=
  ⟨by decide, C7_static_assignment 2 2 (by decide)⟩

end Sched
